import Mathlib

/-! Verification of the periodic-job scheduler in `src/schedule/__init__.py`:
the next-run-time computation (`Job._schedule_next_run`), the single-job
execution protocol (`Job.run`), the due-selection loop
(`Scheduler.run_pending`) and the simulated-clock discipline
(`Scheduler.timestamp`).

Time is modelled as `Int`: the number of microseconds since an epoch that
falls on a Monday at midnight.  Python naive `datetime.datetime` values are
exact integers of microseconds, so this embedding is exact; Python's floor
division and nonnegative remainder correspond to `Int.ediv` / `Int.emod`,
which is what `/` and `%` denote on `Int` here.

All claims concern jobs without a time-zone anchor (`at_time_zone is None`),
for which the time-zone branches of `_schedule_next_run` (lines 754-762,
790-791 and 832-835 of the source) are the identity; the embedding covers
exactly that fragment of the code and omits the `at_time_zone` field.

The scheduler's bound callables are external to the core: a call to
`job_func()` either returns a value or raises.  A job's callable is
therefore embedded as its outcome `funcResult : Except String Int`
(`.error` = the call raises); `Job.run` additionally reports whether the
bound callable was invoked, which is the observable side effect of a run.
-/

namespace Schedule

/-- Microseconds per second: the resolution of Python `datetime`/`timedelta`. -/
def usPerSecond : Int := 1000000

/-- Microseconds per minute. -/
def usPerMinute : Int := 60000000

/-- Microseconds per hour. -/
def usPerHour : Int := 3600000000

/-- Microseconds per day. -/
def usPerDay : Int := 86400000000

/-- Microseconds per week. -/
def usPerWeek : Int := 604800000000

/-- The five valid time units of the scheduler (`Job.unit`). -/
inductive TimeUnit
  | seconds
  | minutes
  | hours
  | days
  | weeks
deriving DecidableEq

/-- Duration of one unit, as produced by `datetime.timedelta(**{unit: 1})`. -/
def TimeUnit.duration : TimeUnit → Int
  | .seconds => usPerSecond
  | .minutes => usPerMinute
  | .hours => usPerHour
  | .days => usPerDay
  | .weeks => usPerWeek

/-- Number of whole days since the epoch of instant `t` (the date part). -/
def dateOf (t : Int) : Int := t / usPerDay

/-- Time of day of instant `t` in microseconds (`datetime.time()` incl. microseconds). -/
def timeOfDay (t : Int) : Int := t % usPerDay

/-- Python `datetime.weekday()`: Monday = 0, ..., Sunday = 6.  The epoch (day 0)
is a Monday. -/
def weekdayOf (t : Int) : Int := (t / usPerDay) % 7

/-- The `hour` field of the datetime at instant `t`. -/
def hourOf (t : Int) : Int := (t % usPerDay) / usPerHour

/-- The `minute` field of the datetime at instant `t`. -/
def minuteOf (t : Int) : Int := (t % usPerHour) / usPerMinute

/-- The `second` field of the datetime at instant `t`. -/
def secondOf (t : Int) : Int := (t % usPerMinute) / usPerSecond

/-- Python `datetime.replace(hour=…, minute=…, second=s, microsecond=0)` where the
hour/minute keywords may be absent (`none` keeps the original field), as used in
`Job._schedule_next_run` lines 796-802. -/
def replaceFields (t : Int) (hArg mArg : Option Int) (s : Int) : Int :=
  dateOf t * usPerDay + (hArg.getD (hourOf t)) * usPerHour
    + (mArg.getD (minuteOf t)) * usPerMinute + s * usPerSecond

/-- The weekday names accepted by `Job._schedule_next_run` (`start_day`). -/
inductive Weekday
  | monday
  | tuesday
  | wednesday
  | thursday
  | friday
  | saturday
  | sunday
deriving DecidableEq

/-- Index of a weekday in the `weekdays` tuple of `_schedule_next_run` (line 782),
which coincides with Python's `datetime.weekday()` numbering. -/
def Weekday.index : Weekday → Int
  | .monday => 0
  | .tuesday => 1
  | .wednesday => 2
  | .thursday => 3
  | .friday => 4
  | .saturday => 5
  | .sunday => 6

/-- A clock-time anchor, `datetime.time(hour, minute, second)` (microsecond 0),
stored in `Job.at_time`. -/
structure AtTime where
  hour : Int
  minute : Int
  second : Int
deriving DecidableEq

/-- The exception kinds raised by the embedded code paths. -/
inductive Err
  | scheduleValueError (msg : String)
  | scheduleError (msg : String)
  | jobFuncError (msg : String)
deriving DecidableEq

/-- Outcome of `Job.run()` when no exception propagates: either the sentinel
`CancelJob` or the bound function's return value passed through. -/
inductive RunResult
  | cancelJob
  | value (v : Int)
deriving DecidableEq

/-- Decidable equality for `Except`, needed to evaluate concrete job states. -/
instance {ε α : Type} [DecidableEq ε] [DecidableEq α] : DecidableEq (Except ε α) := fun x y =>
  match x, y with
  | .ok a, .ok b =>
    if h : a = b then .isTrue (by rw [h]) else .isFalse (by intro hc; cases hc; exact h rfl)
  | .error a, .error b =>
    if h : a = b then .isTrue (by rw [h]) else .isFalse (by intro hc; cases hc; exact h rfl)
  | .ok _, .error _ => .isFalse (by intro hc; cases hc)
  | .error _, .ok _ => .isFalse (by intro hc; cases hc)

/-- The mutable state and configuration of one `Job`.  `jid` models Python
object identity (list removal and in-place mutation address a specific
object).  `funcResult` is the outcome of calling the bound callable. -/
structure Job where
  jid : Nat
  interval : Int
  latest : Option Int := none
  unit : Option TimeUnit := none
  at_time : Option AtTime := none
  last_run : Option Int := none
  next_run : Option Int := none
  period : Option Int := none
  start_day : Option Weekday := none
  cancel_after : Option Int := none
  tags : List Nat := []
  funcResult : Except String Int := .ok 0
deriving DecidableEq

/-- Job._is_overdue (lines 861-862): `cancel_after` is set and `when` is strictly
after it. -/
def isOverdue (j : Job) (when : Int) : Bool :=
  match j.cancel_after with
  | none => false
  | some c => decide (when > c)

/-- Job.should_run (lines 702-708): the scheduler's current instant has reached
`next_run`.  The source asserts `next_run is not None`; an unconfigured job
(`next_run = none`) is modelled as not runnable. -/
def shouldRun (j : Job) (now : Int) : Bool :=
  match j.next_run with
  | none => false
  | some nr => decide (now ≥ nr)

/-- Step 2 of `_schedule_next_run` (lines 746-751): resolve the effective
interval.  `draw` is the value returned by `random.randint(interval, latest)`
for this call; it is consulted only when `latest` is set. -/
def effectiveInterval (j : Job) (draw : Int) : Except Err Int :=
  match j.latest with
  | none => .ok j.interval
  | some l =>
    if l ≥ j.interval then .ok draw
    else .error (.scheduleError "latest is greater than interval")

/-- Lines 766-786 of `_schedule_next_run`: re-base a provisional next run `nr`
(which equals now + period) onto the next occurrence of the `start_day`
weekday. -/
def applyStartDay (j : Job) (period nr : Int) : Except Err Int :=
  match j.start_day with
  | none => .ok nr
  | some sd =>
    if j.unit ≠ some TimeUnit.weeks then
      .error (.scheduleValueError "unit should be weeks")
    else
      let daysAhead0 := sd.index - weekdayOf nr
      let daysAhead := if daysAhead0 ≤ 0 then daysAhead0 + 7 else daysAhead0
      .ok (nr + daysAhead * usPerDay - period)

/-- Lines 793-824 of `_schedule_next_run`: overwrite the time-of-day fields of
the provisional next run `nr` with the `at_time` anchor and apply the
unit-specific same-period roll-back. -/
def applyAtTime (j : Job) (period now nr : Int) : Except Err Int :=
  match j.at_time with
  | none => .ok nr
  | some a =>
    if (j.unit ≠ some TimeUnit.days ∧ j.unit ≠ some TimeUnit.hours ∧
        j.unit ≠ some TimeUnit.minutes) ∧ j.start_day = none then
      .error (.scheduleValueError "Invalid unit without specifying start day")
    else
      let hArg : Option Int :=
        if j.unit = some TimeUnit.days ∨ j.start_day.isSome then some a.hour else none
      let mArg : Option Int :=
        if j.unit = some TimeUnit.days ∨ j.unit = some TimeUnit.hours ∨ j.start_day.isSome
        then some a.minute else none
      let nrA := replaceFields nr hArg mArg a.second
      let gate : Bool :=
        match j.last_run with
        | none => true
        | some lr => decide (nrA - lr > period)
      let nrB :=
        if gate then
          if j.unit = some TimeUnit.days ∧ timeOfDay nrA > timeOfDay now ∧ j.interval = 1 then
            nrA - usPerDay
          else if j.unit = some TimeUnit.hours ∧
              (a.minute > minuteOf now ∨ (a.minute = minuteOf now ∧ a.second > secondOf now)) then
            nrA - usPerHour
          else if j.unit = some TimeUnit.minutes ∧ a.second > secondOf now then
            nrA - usPerMinute
          else nrA
        else nrA
      .ok nrB

/-- Lines 825-828 of `_schedule_next_run`: when both a weekday anchor and a
clock anchor are set and the provisional next run is at least 7 whole days
away, pull it back by one period.  Python `timedelta.days` is floor division
of the total duration by one day. -/
def applyStartDayAt (j : Job) (period now nr : Int) : Int :=
  match j.start_day, j.at_time with
  | some _, some _ => if (nr - now) / usPerDay ≥ 7 then nr - period else nr
  | _, _ => nr

/-- Job._schedule_next_run (lines 736-835) for the time-zone-free fragment
(`at_time_zone is None`, where `now` is the scheduler's current instant and
the normalization steps are the identity).  `draw` is this call's
`random.randint` outcome.  On an error the Python method raises; partial
field mutation on the raising paths is not observable by any claim, so the
embedding returns the error alone. -/
def scheduleNextRun (draw : Int) (j : Job) (now : Int) : Except Err Job :=
  match j.unit with
  | none => .error (.scheduleValueError "Invalid unit")
  | some u =>
    match effectiveInterval j draw with
    | .error e => .error e
    | .ok itv =>
      let period := itv * u.duration
      match applyStartDay j period (now + period) with
      | .error e => .error e
      | .ok nr1 =>
        match applyAtTime j period now nr1 with
        | .error e => .error e
        | .ok nr2 =>
          .ok { j with period := some period,
                       next_run := some (applyStartDayAt j period now nr2) }

/-- Job.run (lines 710-734).  Returns the result (`CancelJob`, the bound
function's value, or a propagating exception), the job state after the call
(Python mutates the object in place), and whether the bound callable was
invoked. -/
def run (draw : Int) (j : Job) (now : Int) : Except Err RunResult × Job × Bool :=
  if isOverdue j now then (.ok .cancelJob, j, false)
  else
    match j.funcResult with
    | .error e => (.error (.jobFuncError e), j, true)
    | .ok v =>
      let j1 := { j with last_run := some now }
      match scheduleNextRun draw j1 now with
      | .error e => (.error e, j1, true)
      | .ok j2 =>
        if isOverdue j2 (j2.next_run.getD now) then (.ok .cancelJob, j2, true)
        else (.ok (.value v), j2, true)

/-- Job.until (lines 612-678) for a `datetime.datetime` argument: record the
deadline, then reject it if it lies strictly before the scheduler's current
instant. -/
def untilDatetime (j : Job) (now untilTime : Int) : Except Err Job :=
  let j' := { j with cancel_after := some untilTime }
  if untilTime < now then
    .error (.scheduleValueError "Cannot schedule a job to run until a time in the past")
  else .ok j'

/-- The scheduler state driven by the claims: the registered jobs and the
current instant of a simulated-mode scheduler (`run_pending` reads
`self.timestamp`, which is constant between injections in that mode). -/
structure SchedState where
  jobs : List Job
  timestamp : Int
deriving DecidableEq

/-- Sort key used by `Job.__lt__` (lines 293-298): the `next_run` instant.
The source would raise on `None`; registered jobs always carry a computed
`next_run` (see the invariant claims), so a default is never reached there. -/
def jobKey (j : Job) : Int := j.next_run.getD 0

/-- Stable insertion of a job into a list sorted by `jobKey` (ties keep the
earlier element first, as Python's stable `sorted` does). -/
def insertJob (x : Job) : List Job → List Job
  | [] => [x]
  | y :: ys => if jobKey x ≤ jobKey y then x :: y :: ys else y :: insertJob x ys

/-- Stable sort by ascending `next_run`, modelling `sorted(runnable_jobs)`. -/
def sortJobs : List Job → List Job
  | [] => []
  | x :: xs => insertJob x (sortJobs xs)

/-- The jobs selected by `run_pending` (line 109): those whose `should_run`
is true at the scheduler's current instant. -/
def dueJobs (s : SchedState) : List Job :=
  s.jobs.filter (fun j => shouldRun j s.timestamp)

/-- In-place mutation of the job object with identity `a`: every list entry
holding that object now shows the new state `j'`. -/
def replaceJob (l : List Job) (a : Nat) (j' : Job) : List Job :=
  l.map (fun k => if k.jid = a then j' else k)

/-- Scheduler.cancel_job via `list.remove`: delete the first entry with the
given identity; removing an absent job is a silent no-op. -/
def removeJob (l : List Job) (a : Nat) : List Job :=
  match l with
  | [] => []
  | j :: rest => if j.jid = a then rest else j :: removeJob rest a

/-- Scheduler._run_job (lines 182-185): run the job (drawing this call's
`random.randint` outcome from the oracle `rnd`), record the mutation, and
unschedule the job when it returned `CancelJob`. -/
def runJobStep (rnd : Int → Int → Int) (s : SchedState) (j : Job) :
    Except Err Unit × SchedState :=
  let draw := rnd j.interval (j.latest.getD j.interval)
  let out := run draw j s.timestamp
  match out.1 with
  | .error e => (.error e, { s with jobs := replaceJob s.jobs j.jid out.2.1 })
  | .ok .cancelJob =>
    (.ok (), { s with jobs := removeJob (replaceJob s.jobs j.jid out.2.1) j.jid })
  | .ok (.value _) => (.ok (), { s with jobs := replaceJob s.jobs j.jid out.2.1 })

/-- The loop of `run_pending` over the sorted due snapshot; a raising job
aborts the loop and the exception propagates (the log records the jobs whose
execution path was entered, in order). -/
def runPendingAux (rnd : Int → Int → Int) :
    SchedState → List Job → Except Err Unit × SchedState × List Nat
  | s, [] => (.ok (), s, [])
  | s, j :: rest =>
    let step := runJobStep rnd s j
    match step.1 with
    | .error e => (.error e, step.2, [j.jid])
    | .ok () =>
      let next := runPendingAux rnd step.2 rest
      (next.1, next.2.1, j.jid :: next.2.2)

/-- Scheduler.run_pending (lines 99-111): snapshot the runnable jobs, sort
them by ascending `next_run`, and execute each via `_run_job`. -/
def runPending (rnd : Int → Int → Int) (s : SchedState) :
    Except Err Unit × SchedState × List Nat :=
  runPendingAux rnd s (sortJobs (dueJobs s))

/-- Job.do (lines 680-700): compute the first `next_run`, then append the job
to the scheduler's collection. -/
def doJob (rnd : Int → Int → Int) (j : Job) (s : SchedState) : Except Err SchedState :=
  match scheduleNextRun (rnd j.interval (j.latest.getD j.interval)) j s.timestamp with
  | .error e => .error e
  | .ok j' => .ok { s with jobs := s.jobs ++ [j'] }

/-- Scheduler.clear (lines 145-158): delete all jobs, or all jobs bearing the
given tag. -/
def clearJobs (tag : Option Nat) (s : SchedState) : SchedState :=
  match tag with
  | none => { s with jobs := [] }
  | some t => { s with jobs := s.jobs.filter (fun j => decide (t ∉ j.tags)) }

/-- Scheduler.cancel_job for a job identity. -/
def cancelJobOp (s : SchedState) (a : Nat) : SchedState :=
  { s with jobs := removeJob s.jobs a }

/-- Python `min` over jobs using `Job.__lt__`: the first job attaining the
minimal `next_run`. -/
def minJob : List Job → Option Job
  | [] => none
  | j :: rest => some (rest.foldl (fun m k => if jobKey k < jobKey m then k else m) j)

/-- Scheduler.get_next_run (lines 187-203). -/
def getNextRun (tag : Option Nat) (s : SchedState) : Option Int :=
  if s.jobs.isEmpty then none
  else
    let filtered := match tag with
      | none => s.jobs
      | some t => s.jobs.filter (fun j => decide (t ∈ j.tags))
    if filtered.isEmpty then none
    else (minJob filtered).bind Job.next_run

/-- The clock-owning part of a `Scheduler` (lines 85-97, 207-229): wall-clock
versus simulated mode and the injected instant of the latter. -/
structure SchedulerClock where
  is_realtime : Bool
  timestampVal : Option Int
deriving DecidableEq

/-- Scheduler.__init__ (lines 85-97): exactly one of the two modes must be
consistent with the presence of a start timestamp. -/
def mkScheduler (rt : Bool) (start : Option Int) : Except Err SchedulerClock :=
  if rt ∧ start.isSome then
    .error (.scheduleError "realtime scheduler with start timestamp")
  else if ¬rt ∧ start.isNone then
    .error (.scheduleError "non-realtime scheduler without start timestamp")
  else .ok { is_realtime := rt, timestampVal := start }

/-- The `timestamp` setter (lines 217-229).  In wall-clock mode any injection
is rejected; in simulated mode an instant strictly before the recorded one is
rejected (the recorded instant is mutated only after both checks, so a
rejection leaves it unchanged).  Comparing against a `none` record would be a
Python `TypeError`; `mkScheduler` never produces that state in simulated
mode. -/
def setTimestamp (s : SchedulerClock) (t : Int) : Except Err SchedulerClock :=
  if s.is_realtime then
    .error (.scheduleError "Cannot update the current time in realtime mode")
  else
    match s.timestampVal with
    | none => .error (.scheduleError "comparison with unset timestamp")
    | some cur =>
      if t < cur then .error (.scheduleError "Cannot set the current time to a time in the past")
      else .ok { s with timestampVal := some t }

/-- Validity of an `at_time` anchor as enforced by `Job.at` (lines 507-595)
for the given unit and weekday anchor: field ranges, with the hour (and for
minute jobs also the minute) forced to zero for sub-daily jobs. -/
def validAt (u : TimeUnit) (sd : Option Weekday) (a : AtTime) : Bool :=
  decide (0 ≤ a.second ∧ a.second ≤ 59) &&
    (if sd.isSome ∨ u = TimeUnit.days then
      decide (0 ≤ a.hour ∧ a.hour ≤ 23 ∧ 0 ≤ a.minute ∧ a.minute ≤ 59)
    else if u = TimeUnit.hours then
      decide (a.hour = 0 ∧ 0 ≤ a.minute ∧ a.minute ≤ 59)
    else if u = TimeUnit.minutes then
      decide (a.hour = 0 ∧ a.minute = 0)
    else false)

/-- A registered job as the configuration surface can produce it: unit set,
interval at least one, `latest` at least `interval`, weekday anchors only on
weekly jobs, clock anchors only where `at()` accepts them and with field
values `at()` can produce, a computed `next_run`, and a bound callable that
returns normally. -/
def validJob (j : Job) : Bool :=
  j.unit.isSome &&
    decide (1 ≤ j.interval) &&
    (match j.latest with
     | none => true
     | some l => decide (j.interval ≤ l)) &&
    (match j.start_day with
     | none => true
     | some _ => decide (j.unit = some TimeUnit.weeks)) &&
    (match j.at_time, j.unit with
     | none, _ => true
     | some a, some u =>
       (decide (u = TimeUnit.days) || decide (u = TimeUnit.hours) ||
         decide (u = TimeUnit.minutes) || j.start_day.isSome) &&
         validAt u j.start_day a
     | some _, none => false) &&
    j.next_run.isSome &&
    (match j.funcResult with
     | .ok _ => true
     | .error _ => false)

/-- A scheduler state in normal operation: every registered job is valid and
the entries are distinct objects. -/
def validState (s : SchedState) : Bool :=
  s.jobs.all validJob && decide (s.jobs.map Job.jid).Nodup

/-- Witness for C1 at a concrete overdue instant. -/
def c1Job : Job :=
  { jid := 0, interval := 1, unit := some TimeUnit.seconds,
    cancel_after := some 0, funcResult := .ok 3 }

/-- Concrete job for the C3 witness: every 10 minutes. -/
def c3Job : Job :=
  { jid := 0, interval := 10, unit := some TimeUnit.minutes, funcResult := .ok 1 }

/-- Concrete job for the C6 witness: every(5).to(10).seconds. -/
def c6Job : Job :=
  { jid := 0, interval := 5, latest := some 10, unit := some TimeUnit.seconds }

/-- Concrete job for the C8 witness. -/
def c8Job : Job :=
  { jid := 0, interval := 1, unit := some TimeUnit.seconds,
    next_run := some 4, funcResult := .error "boom" }

/-- C9 witness: a simulated scheduler at instant 10. -/
def c9Clock : SchedulerClock := { is_realtime := false, timestampVal := some 10 }

/-- C7 counterexample input: a job with deadline `cancel_after = 0` that is
due at instant 0, run exactly at the deadline. -/
def untilCexJob : Job :=
  { jid := 1, interval := 1, unit := some TimeUnit.minutes, next_run := some 0,
    cancel_after := some 0, funcResult := .ok 7 }

/-- Concrete job for the C7 witness. -/
def c7Job : Job :=
  { jid := 2, interval := 1, unit := some TimeUnit.seconds, next_run := some 0,
    cancel_after := some 20, funcResult := .ok 5 }

/-- Clock anchor 10:30:00 as microseconds of the day. -/
def tenThirty : Int := 10 * usPerHour + 30 * usPerMinute

/-- Concrete job for the C4 witness: every().day.at("10:30"), never run. -/
def c4Job : Job :=
  { jid := 3, interval := 1, unit := some TimeUnit.days, at_time := some ⟨10, 30, 0⟩ }

/-- Clock anchor 12:00:00 as microseconds of the day. -/
def noonUs : Int := 12 * usPerHour

/-- Concrete job for the C5 witness. -/
def c5Job : Job :=
  { jid := 4, interval := 1, unit := some TimeUnit.weeks,
    start_day := some Weekday.monday, at_time := some ⟨12, 0, 0⟩ }

/-- C2 counterexample input: `every().monday.at("12:00")`, due exactly at a
Monday noon instant (day 0 of the epoch is a Monday). -/
def mondayCexJob : Job :=
  { jid := 1, interval := 1, unit := some TimeUnit.weeks,
    start_day := some Weekday.monday, at_time := some ⟨12, 0, 0⟩,
    next_run := some noonUs, funcResult := .ok 0 }

/-- The scheduler state of the C2 counterexample. -/
def cexState : SchedState := { jobs := [mondayCexJob], timestamp := noonUs }

/-- A randint oracle that always draws the lower bound. -/
def cexRnd : Int → Int → Int := fun lo _ => lo

/-- A plain every-10-minutes job state for the C2 witness. -/
def c2WitnessState : SchedState :=
  { jobs := [{ jid := 1, interval := 10, unit := some TimeUnit.minutes,
               next_run := some 0, funcResult := .ok 4 }],
    timestamp := 0 }

/-- A one-job state for the C10 witness. -/
def c10State : SchedState :=
  { jobs := [{ jid := 7, interval := 1, unit := some TimeUnit.hours,
               next_run := some 50, funcResult := .ok 2 }],
    timestamp := 60 }


/-- Every unit duration is positive. -/
theorem TimeUnit.duration_pos (u : TimeUnit) : 0 < u.duration := by
  cases u <;> decide

/-- Shape of a successful `_schedule_next_run`: the unit was valid, the
effective interval was resolved, and only `period` and `next_run` are
mutated, `next_run` to a computed instant. -/
theorem scheduleNextRun_ok_shape (draw : Int) (j : Job) (now : Int) (j' : Job)
    (h : scheduleNextRun draw j now = .ok j') :
    ∃ u itv nr, j.unit = some u ∧ effectiveInterval j draw = .ok itv ∧
      j' = { j with period := some (itv * u.duration), next_run := some nr } := by
  unfold scheduleNextRun at h
  split at h
  · exact absurd h (by simp)
  · split at h
    · exact absurd h (by simp)
    · dsimp only at h
      split at h
      · exact absurd h (by simp)
      · split at h
        · exact absurd h (by simp)
        · exact ⟨_, _, _, by assumption, by assumption, (Except.ok.inj h).symm⟩

/-- Helper: any `run` that passes the entry overdue check invokes the bound
callable, on every subsequent path. -/
theorem run_invoked_of_not_overdue (draw : Int) (j : Job) (now : Int)
    (hov : isOverdue j now = false) : (run draw j now).2.2 = true := by
  unfold run
  simp only [hov, Bool.false_eq_true, if_false]
  split
  · rfl
  · split
    · rfl
    · split <;> rfl

/-- C1: `Job.run` on a configured job: when the scheduler's current instant is
strictly after `cancel_after`, the cancellation signal is returned at once,
the bound function is not invoked and the job state (in particular
`last_run` and `next_run`) is untouched; otherwise the bound function is
invoked, `last_run` is set to the current instant, `next_run` is recomputed,
and `CancelJob` is returned exactly when the newly computed `next_run` lies
strictly after `cancel_after` (overriding the function's value), else the
function's value is returned unchanged. -/
theorem C1_run_respects_deadline (draw : Int) (j : Job) (now : Int) :
    (∀ c, j.cancel_after = some c → now > c →
      run draw j now = (.ok .cancelJob, j, false)) ∧
    (isOverdue j now = false →
      ∀ v, j.funcResult = .ok v →
      ∀ j2, scheduleNextRun draw { j with last_run := some now } now = .ok j2 →
      ∃ nr, j2.next_run = some nr ∧ j2.last_run = some now ∧
        run draw j now =
          (.ok (if isOverdue j2 nr then .cancelJob else .value v), j2, true)) := by
  constructor
  · intro c hc hgt
    have hov : isOverdue j now = true := by simp [isOverdue, hc, hgt]
    simp [run, hov]
  · intro hov v hv j2 hs
    obtain ⟨u, itv, nr, hu, hitv, hshape⟩ := scheduleNextRun_ok_shape _ _ _ _ hs
    have hnr : j2.next_run = some nr := by rw [hshape]
    have hlr : j2.last_run = some now := by rw [hshape]
    refine ⟨nr, hnr, hlr, ?_⟩
    rw [hv] at hs
    simp only [run, hov, Bool.false_eq_true, if_false, hv, hs, hnr, Option.getD_some]
    split <;> rfl

/-- C1 witness: a job whose deadline has passed is cancelled without running. -/
theorem C1_run_respects_deadline_witness :
    run 0 c1Job 5 = (.ok .cancelJob, c1Job, false) :=
  (C1_run_respects_deadline 0 c1Job 5).1 0 rfl (by decide)

/-- C3: a job with a valid unit, interval at least 1 and no `at_time`,
`latest` or `start_day` anchor: after a completed `run()` the recomputed
`next_run` minus the recorded `last_run` is exactly `interval` times the
unit duration. -/
theorem C3_plain_cadence (draw : Int) (j : Job) (now : Int) (u : TimeUnit) (v : Int)
    (hu : j.unit = some u) (_hint : 1 ≤ j.interval)
    (hat : j.at_time = none) (hlat : j.latest = none) (hsd : j.start_day = none)
    (hfn : j.funcResult = .ok v) (hov : isOverdue j now = false) :
    (run draw j now).2.2 = true ∧
    (run draw j now).2.1.last_run = some now ∧
    ∃ nr, (run draw j now).2.1.next_run = some nr ∧
      nr - now = j.interval * u.duration := by
  have hsched : scheduleNextRun draw { j with last_run := some now } now =
      .ok { j with last_run := some now,
                   period := some (j.interval * u.duration),
                   next_run := some (now + j.interval * u.duration) } := by
    simp [scheduleNextRun, hu, effectiveInterval, hlat, applyStartDay, hsd,
      applyAtTime, hat, applyStartDayAt]
  rw [hfn] at hsched
  refine ⟨run_invoked_of_not_overdue draw j now hov, ?_, ?_⟩
  · simp only [run, hov, Bool.false_eq_true, if_false, hfn, hsched]
    split <;> rfl
  · refine ⟨now + j.interval * u.duration, ?_, by ring⟩
    simp only [run, hov, Bool.false_eq_true, if_false, hfn, hsched]
    split <;> rfl

/-- C3 witness at the instant 12345. -/
theorem C3_plain_cadence_witness :
    (run 0 c3Job 12345).2.2 = true ∧
    (run 0 c3Job 12345).2.1.last_run = some 12345 ∧
    ∃ nr, (run 0 c3Job 12345).2.1.next_run = some nr ∧
      nr - 12345 = c3Job.interval * TimeUnit.duration TimeUnit.minutes :=
  C3_plain_cadence 0 c3Job 12345 TimeUnit.minutes 1 rfl (by decide) rfl rfl rfl rfl
    (by decide)

/-- C6: with `latest` set, every recomputation first re-validates
`latest ≥ interval` (raising otherwise), and on success the effective
interval is this call's fresh `random.randint` draw, so with the randint
contract `interval ≤ draw ≤ latest` the stored period lies between
`interval` and `latest` unit durations. -/
theorem C6_latest_jitter (draw : Int) (j : Job) (now : Int) (u : TimeUnit) (l : Int)
    (hl : j.latest = some l) (hu : j.unit = some u) :
    (l < j.interval →
      scheduleNextRun draw j now =
        .error (.scheduleError "latest is greater than interval")) ∧
    (∀ j', scheduleNextRun draw j now = .ok j' →
      j'.period = some (draw * u.duration)) ∧
    (j.interval ≤ draw → draw ≤ l →
      j.interval * u.duration ≤ draw * u.duration ∧
      draw * u.duration ≤ l * u.duration) := by
  refine ⟨?_, ?_, ?_⟩
  · intro hlt
    have hge : ¬ (l ≥ j.interval) := not_le.mpr hlt
    simp [scheduleNextRun, hu, effectiveInterval, hl, hge]
  · intro j' hok
    obtain ⟨u', itv, nr, hu', hitv, hshape⟩ := scheduleNextRun_ok_shape _ _ _ _ hok
    have huu : u' = u := by
      rw [hu] at hu'
      exact (Option.some.inj hu').symm
    subst huu
    simp only [effectiveInterval, hl] at hitv
    split at hitv
    · obtain rfl : draw = itv := Except.ok.inj hitv
      rw [hshape]
    · exact absurd hitv (by simp)
  · intro h1 h2
    have hd : (0 : Int) ≤ u.duration := le_of_lt (TimeUnit.duration_pos u)
    exact ⟨mul_le_mul_of_nonneg_right h1 hd, mul_le_mul_of_nonneg_right h2 hd⟩

/-- C6 witness with draw 7. -/
theorem C6_latest_jitter_witness :
    (∀ j', scheduleNextRun 7 c6Job 0 = .ok j' →
      j'.period = some (7 * TimeUnit.duration TimeUnit.seconds)) ∧
    c6Job.interval * TimeUnit.duration TimeUnit.seconds ≤
      7 * TimeUnit.duration TimeUnit.seconds ∧
    7 * TimeUnit.duration TimeUnit.seconds ≤ 10 * TimeUnit.duration TimeUnit.seconds :=
  ⟨(C6_latest_jitter 7 c6Job 0 TimeUnit.seconds 10 rfl rfl).2.1,
    (C6_latest_jitter 7 c6Job 0 TimeUnit.seconds 10 rfl rfl).2.2 (by decide) (by decide)⟩

/-- C8: a bound function that raises: the exception propagates out of `run`
uncaught, and the job state — in particular `last_run` and `next_run` — is
exactly its pre-run state (no reschedule, no post-run overdue check). -/
theorem C8_exception_freezes (draw : Int) (j : Job) (now : Int) (e : String)
    (hfn : j.funcResult = .error e) (hov : isOverdue j now = false) :
    run draw j now = (.error (.jobFuncError e), j, true) := by
  simp [run, hov, hfn]

/-- C8 witness: the exception propagates and the job is unchanged. -/
theorem C8_exception_freezes_witness :
    run 0 c8Job 9 = (.error (.jobFuncError "boom"), c8Job, true) :=
  C8_exception_freezes 0 c8Job 9 "boom" rfl (by decide)

/-- C9: the simulated clock is monotone: injecting an instant strictly
before the recorded one is rejected (the record, mutated only after the
check, stays unchanged), an equal-or-later instant is accepted and recorded,
and any injection on a wall-clock scheduler is rejected. -/
theorem C9_timestamp_monotone (s : SchedulerClock) (t cur : Int) :
    (s.is_realtime = false → s.timestampVal = some cur →
      (t < cur → setTimestamp s t =
        .error (.scheduleError "Cannot set the current time to a time in the past")) ∧
      (cur ≤ t → setTimestamp s t = .ok { s with timestampVal := some t })) ∧
    (s.is_realtime = true →
      setTimestamp s t =
        .error (.scheduleError "Cannot update the current time in realtime mode")) := by
  constructor
  · intro hrt hcur
    constructor
    · intro hlt
      simp [setTimestamp, hrt, hcur, hlt]
    · intro hle
      have : ¬ t < cur := not_lt.mpr hle
      simp [setTimestamp, hrt, hcur, this]
  · intro hrt
    simp [setTimestamp, hrt]

/-- C9 witness: moving back is rejected, moving forward is recorded. -/
theorem C9_timestamp_monotone_witness :
    setTimestamp c9Clock 3 =
      .error (.scheduleError "Cannot set the current time to a time in the past") ∧
    setTimestamp c9Clock 12 = .ok { c9Clock with timestampVal := some 12 } :=
  ⟨((C9_timestamp_monotone c9Clock 3 10).1 rfl rfl).1 (by decide),
   ((C9_timestamp_monotone c9Clock 12 10).1 rfl rfl).2 (by decide)⟩

/-- C7 counterexample: a `run()` invoked exactly at the deadline does invoke
the bound function (the deadline check `when > cancel_after` is strict), and
then returns the cancellation signal because the recomputed next run exceeds
the deadline.  This refutes the claim that a run at (not only after) the
deadline returns the signal without invoking the bound function. -/
theorem C7_run_at_deadline_invokes_cex :
    (run 1 untilCexJob 0).2.2 = true ∧ (run 1 untilCexJob 0).1 = .ok .cancelJob := by
  decide

/-- C7 (amended): `until()` with a moment strictly earlier than the current
instant raises a value error; with a current-or-future moment it succeeds
and records the deadline; a `run()` strictly after the deadline returns the
cancellation signal without invoking the bound function; a `run()` at or
before the deadline still invokes it. -/
theorem C7_until_deadline (j : Job) (now t c draw : Int) :
    (t < now → untilDatetime j now t =
      .error (.scheduleValueError "Cannot schedule a job to run until a time in the past")) ∧
    (now ≤ t → untilDatetime j now t = .ok { j with cancel_after := some t }) ∧
    (j.cancel_after = some c → c < now →
      run draw j now = (.ok .cancelJob, j, false)) ∧
    (j.cancel_after = some c → now ≤ c → (run draw j now).2.2 = true) := by
  refine ⟨?_, ?_, ?_, ?_⟩
  · intro hlt
    simp [untilDatetime, hlt]
  · intro hle
    have hnl : ¬ t < now := not_lt.mpr hle
    simp [untilDatetime, hnl]
  · intro hc hlt
    have hov : isOverdue j now = true := by
      simp only [isOverdue, hc, decide_eq_true_eq]
      omega
    simp [run, hov]
  · intro hc hle
    have hov : isOverdue j now = false := by
      simp only [isOverdue, hc, decide_eq_false_iff_not]
      omega
    exact run_invoked_of_not_overdue draw j now hov

/-- C7 witness: rejection of a past deadline, acceptance of a future one, and
cancellation-without-invocation strictly after the deadline. -/
theorem C7_until_deadline_witness :
    untilDatetime c7Job 10 4 =
      .error (.scheduleValueError "Cannot schedule a job to run until a time in the past") ∧
    untilDatetime c7Job 10 15 = .ok { c7Job with cancel_after := some 15 } ∧
    run 0 c7Job 25 = (.ok .cancelJob, c7Job, false) :=
  ⟨(C7_until_deadline c7Job 10 4 0 0).1 (by decide),
   (C7_until_deadline c7Job 10 15 0 0).2.1 (by decide),
   (C7_until_deadline c7Job 25 0 20 0).2.2.1 rfl (by decide)⟩

/-- C4: a job `every().day.at("10:30")` (unit days, interval 1, no prior
run): a recomputation at a reference instant strictly before 10:30 yields
the same day at 10:30:00; strictly after 10:30 it yields the following day
at 10:30:00. -/
theorem C4_daily_at_ten_thirty (draw now : Int) (j : Job)
    (hu : j.unit = some TimeUnit.days) (hi : j.interval = 1)
    (ha : j.at_time = some ⟨10, 30, 0⟩) (hlr : j.last_run = none)
    (hsd : j.start_day = none) (hlat : j.latest = none) :
    (timeOfDay now < tenThirty →
      scheduleNextRun draw j now =
        .ok { j with period := some usPerDay,
                     next_run := some (dateOf now * usPerDay + tenThirty) }) ∧
    (tenThirty < timeOfDay now →
      scheduleNextRun draw j now =
        .ok { j with period := some usPerDay,
                     next_run := some ((dateOf now + 1) * usPerDay + tenThirty) }) := by
  have hbase :
      scheduleNextRun draw j now =
        .ok { j with period := some usPerDay,
                     next_run := some (if tenThirty > timeOfDay now then
                       (dateOf now + 1) * usPerDay + tenThirty - usPerDay
                     else (dateOf now + 1) * usPerDay + tenThirty) } := by
    simp only [scheduleNextRun, hu, effectiveInterval, hlat, applyStartDay, hsd,
      applyAtTime, ha, applyStartDayAt, hi, hlr]
    simp [tenThirty, usPerDay, usPerHour, usPerMinute, usPerSecond, TimeUnit.duration]
    simp only [replaceFields, timeOfDay, dateOf, hourOf, minuteOf, Option.getD_some,
      usPerDay, usPerHour, usPerMinute, usPerSecond]
    split_ifs <;> omega
  constructor
  · intro htod
    rw [hbase, if_pos (by omega : tenThirty > timeOfDay now)]
    have hsimp : (dateOf now + 1) * usPerDay + tenThirty - usPerDay
        = dateOf now * usPerDay + tenThirty := by ring
    rw [hsimp]
  · intro htod
    rw [hbase, if_neg (by omega : ¬ tenThirty > timeOfDay now)]

/-- C4 witness: computed at 09:00 of day 5 the next run is day 5, 10:30;
computed at 11:00 of day 5 it is day 6, 10:30. -/
theorem C4_daily_at_ten_thirty_witness :
    scheduleNextRun 0 c4Job (5 * usPerDay + 9 * usPerHour) =
      .ok { c4Job with
            period := some usPerDay,
            next_run := some (dateOf (5 * usPerDay + 9 * usPerHour) * usPerDay + tenThirty) } ∧
    scheduleNextRun 0 c4Job (5 * usPerDay + 11 * usPerHour) =
      .ok { c4Job with
            period := some usPerDay,
            next_run := some ((dateOf (5 * usPerDay + 11 * usPerHour) + 1) * usPerDay + tenThirty) } :=
  ⟨(C4_daily_at_ten_thirty 0 (5 * usPerDay + 9 * usPerHour) c4Job
      rfl rfl rfl rfl rfl rfl).1 (by decide),
   (C4_daily_at_ten_thirty 0 (5 * usPerDay + 11 * usPerHour) c4Job
      rfl rfl rfl rfl rfl rfl).2 (by decide)⟩

/-- C5: a job `every().monday.at("12:00")` (start_day monday, unit weeks,
interval 1), recomputed from any weekday, clock time and `last_run`: the
next run always falls on a Monday at exactly 12:00:00, lies between 0 and 6
whole days ahead of the reference instant (Python `timedelta.days`, i.e.
floor of the distance in days), and lands on the following week's Monday
when the reference instant is a Monday strictly past 12:00. -/
theorem C5_monday_at_noon (draw now : Int) (j : Job)
    (hu : j.unit = some TimeUnit.weeks) (hi : j.interval = 1)
    (ha : j.at_time = some ⟨12, 0, 0⟩) (hsd : j.start_day = some Weekday.monday)
    (hlat : j.latest = none) :
    ∃ j' nr, scheduleNextRun draw j now = .ok j' ∧ j'.next_run = some nr ∧
      weekdayOf nr = 0 ∧ timeOfDay nr = noonUs ∧
      0 ≤ (nr - now) / usPerDay ∧ (nr - now) / usPerDay ≤ 6 ∧
      (weekdayOf now = 0 → noonUs < timeOfDay now →
        nr = (dateOf now + 7) * usPerDay + noonUs) := by
  simp only [scheduleNextRun, hu, effectiveInterval, hlat, applyStartDay, hsd,
    applyAtTime, ha, applyStartDayAt, hi, Weekday.index]
  simp [TimeUnit.duration, usPerWeek]
  refine ⟨?_, ?_, ?_, ?_, ?_⟩
  · simp only [replaceFields, weekdayOf, timeOfDay, dateOf, hourOf, minuteOf,
      Option.getD_some, noonUs, usPerDay, usPerHour, usPerMinute, usPerSecond]
    split_ifs <;> omega
  · simp only [replaceFields, weekdayOf, timeOfDay, dateOf, hourOf, minuteOf,
      Option.getD_some, noonUs, usPerDay, usPerHour, usPerMinute, usPerSecond]
    split_ifs <;> omega
  · simp only [replaceFields, weekdayOf, timeOfDay, dateOf, hourOf, minuteOf,
      Option.getD_some, noonUs, usPerDay, usPerHour, usPerMinute, usPerSecond]
    split_ifs <;> omega
  · simp only [replaceFields, weekdayOf, timeOfDay, dateOf, hourOf, minuteOf,
      Option.getD_some, noonUs, usPerDay, usPerHour, usPerMinute, usPerSecond]
    split_ifs <;> omega
  · intro h1 h2
    simp only [replaceFields, weekdayOf, timeOfDay, dateOf, hourOf, minuteOf,
      Option.getD_some, noonUs, usPerDay, usPerHour, usPerMinute, usPerSecond] at h1 h2 ⊢
    split_ifs <;> omega

/-- C5 witness at a Wednesday 15:00 reference instant. -/
theorem C5_monday_at_noon_witness :
    ∃ j' nr, scheduleNextRun 0 c5Job (2 * usPerDay + 15 * usPerHour) = .ok j' ∧
      j'.next_run = some nr ∧ weekdayOf nr = 0 ∧ timeOfDay nr = noonUs ∧
      0 ≤ (nr - (2 * usPerDay + 15 * usPerHour)) / usPerDay ∧
      (nr - (2 * usPerDay + 15 * usPerHour)) / usPerDay ≤ 6 ∧
      (weekdayOf (2 * usPerDay + 15 * usPerHour) = 0 →
        noonUs < timeOfDay (2 * usPerDay + 15 * usPerHour) →
        nr = (dateOf (2 * usPerDay + 15 * usPerHour) + 7) * usPerDay + noonUs) :=
  C5_monday_at_noon 0 (2 * usPerDay + 15 * usPerHour) c5Job rfl rfl rfl rfl rfl

/-- Inserting into the sorted due list is a permutation of consing. -/
theorem insertJob_perm (x : Job) (l : List Job) : (insertJob x l).Perm (x :: l) := by
  induction l with
  | nil => exact List.Perm.refl _
  | cons y ys ih =>
    unfold insertJob
    split
    · exact List.Perm.refl _
    · exact (List.Perm.cons y ih).trans (List.Perm.swap x y ys)

/-- The sorted due list is a permutation of the due list. -/
theorem sortJobs_perm (l : List Job) : (sortJobs l).Perm l := by
  induction l with
  | nil => exact List.Perm.refl _
  | cons x xs ih => exact (insertJob_perm x (sortJobs xs)).trans (List.Perm.cons x ih)

/-- Insertion preserves sortedness by ascending `next_run`. -/
theorem insertJob_pairwise (x : Job) (l : List Job)
    (h : l.Pairwise (fun a b => jobKey a ≤ jobKey b)) :
    (insertJob x l).Pairwise (fun a b => jobKey a ≤ jobKey b) := by
  induction l with
  | nil => simp [insertJob]
  | cons y ys ih =>
    rw [List.pairwise_cons] at h
    obtain ⟨hy, hys⟩ := h
    unfold insertJob
    split
    · rename_i hxy
      rw [List.pairwise_cons]
      refine ⟨?_, List.pairwise_cons.mpr ⟨hy, hys⟩⟩
      intro b hb
      rcases List.mem_cons.mp hb with hb | hb
      · exact hb ▸ hxy
      · exact le_trans hxy (hy b hb)
    · rename_i hxy
      push_neg at hxy
      rw [List.pairwise_cons]
      refine ⟨?_, ih hys⟩
      intro b hb
      have hb' := (insertJob_perm x ys).mem_iff.mp hb
      rcases List.mem_cons.mp hb' with hb' | hb'
      · exact hb' ▸ le_of_lt hxy
      · exact hy b hb'

/-- The due snapshot is sorted by ascending `next_run`. -/
theorem sortJobs_pairwise (l : List Job) :
    (sortJobs l).Pairwise (fun a b => jobKey a ≤ jobKey b) := by
  induction l with
  | nil => simp [sortJobs]
  | cons x xs ih => exact insertJob_pairwise x (sortJobs xs) ih

/-- Replacing an identity that does not occur is the identity. -/
theorem replaceJob_eq_of_not_mem (l : List Job) (a : Nat) (j' : Job)
    (ha : a ∉ l.map Job.jid) : replaceJob l a j' = l := by
  induction l with
  | nil => rfl
  | cons x xs ih =>
    simp only [List.map_cons, List.mem_cons, not_or] at ha
    obtain ⟨hxa, hxs⟩ := ha
    simp only [replaceJob, List.map_cons]
    rw [if_neg (fun hc => hxa hc.symm)]
    exact congrArg (x :: ·) (ih hxs)

/-- Members after an in-place mutation: either the new state or an untouched
entry with a different identity. -/
theorem mem_replaceJob (l : List Job) (a : Nat) (j' k : Job)
    (hk : k ∈ replaceJob l a j') : k = j' ∨ (k ∈ l ∧ k.jid ≠ a) := by
  induction l with
  | nil => simp [replaceJob] at hk
  | cons x xs ih =>
    simp only [replaceJob, List.map_cons, List.mem_cons] at hk
    rcases hk with hk | hk
    · by_cases hx : x.jid = a
      · rw [if_pos hx] at hk
        exact .inl hk
      · rw [if_neg hx] at hk
        exact .inr ⟨hk ▸ List.mem_cons_self x xs, hk ▸ hx⟩
    · rcases ih hk with h | ⟨h1, h2⟩
      · exact .inl h
      · exact .inr ⟨List.mem_cons_of_mem x h1, h2⟩

/-- The mutated list carries the same identities. -/
theorem map_jid_replaceJob (l : List Job) (a : Nat) (j' : Job) (hj : j'.jid = a) :
    (replaceJob l a j').map Job.jid = l.map Job.jid := by
  induction l with
  | nil => rfl
  | cons x xs ih =>
    simp only [replaceJob, List.map_cons] at ih ⊢
    by_cases hx : x.jid = a
    · rw [if_pos hx, hj, hx, ih]
    · rw [if_neg hx, ih]

/-- Removal yields a sublist. -/
theorem removeJob_sublist (l : List Job) (a : Nat) : (removeJob l a).Sublist l := by
  induction l with
  | nil => simp [removeJob]
  | cons x xs ih =>
    unfold removeJob
    split
    · exact List.sublist_cons_self x xs
    · exact ih.cons₂ x

/-- Members survive a removal. -/
theorem mem_removeJob (l : List Job) (a : Nat) (k : Job)
    (hk : k ∈ removeJob l a) : k ∈ l :=
  (removeJob_sublist l a).subset hk

/-- The `applyAtTime` step cannot raise when the unit admits a clock anchor
or a weekday anchor is present. -/
theorem applyAtTime_isOk (j : Job) (period now nr : Int) (u : TimeUnit) (a : AtTime)
    (hu : j.unit = some u) (ha : j.at_time = some a)
    (hmem : u = TimeUnit.days ∨ u = TimeUnit.hours ∨ u = TimeUnit.minutes ∨
      j.start_day.isSome = true) :
    ∃ nrB, applyAtTime j period now nr = .ok nrB := by
  have hcond : ¬ ((j.unit ≠ some TimeUnit.days ∧ j.unit ≠ some TimeUnit.hours ∧
      j.unit ≠ some TimeUnit.minutes) ∧ j.start_day = none) := by
    rcases hmem with h | h | h | h
    · exact fun hc => hc.1.1 (by rw [hu, h])
    · exact fun hc => hc.1.2.1 (by rw [hu, h])
    · exact fun hc => hc.1.2.2 (by rw [hu, h])
    · exact fun hc => by rw [hc.2] at h; simp at h
  cases hres : applyAtTime j period now nr with
  | ok x => exact ⟨x, rfl⟩
  | error e =>
    exfalso
    simp only [applyAtTime, ha] at hres
    rw [if_neg hcond] at hres
    simp at hres

/-- A valid configuration never makes `_schedule_next_run` raise. -/
theorem scheduleNextRun_isOk (draw : Int) (j : Job) (now : Int) (u : TimeUnit)
    (hu : j.unit = some u)
    (hlat : ∀ l, j.latest = some l → j.interval ≤ l)
    (hsd : ∀ sd, j.start_day = some sd → j.unit = some TimeUnit.weeks)
    (hat : ∀ a, j.at_time = some a →
      u = TimeUnit.days ∨ u = TimeUnit.hours ∨ u = TimeUnit.minutes ∨
        j.start_day.isSome = true) :
    ∃ j2, scheduleNextRun draw j now = .ok j2 := by
  obtain ⟨itv, hEff⟩ : ∃ itv, effectiveInterval j draw = .ok itv := by
    cases hl : j.latest with
    | none => exact ⟨j.interval, by simp [effectiveInterval, hl]⟩
    | some l => exact ⟨draw, by simp [effectiveInterval, hl, ge_iff_le, hlat l hl]⟩
  obtain ⟨nr1, hSD⟩ : ∃ nr1,
      applyStartDay j (itv * u.duration) (now + itv * u.duration) = .ok nr1 := by
    cases hres : applyStartDay j (itv * u.duration) (now + itv * u.duration) with
    | ok x => exact ⟨x, rfl⟩
    | error e =>
      exfalso
      cases hsd' : j.start_day with
      | none => simp [applyStartDay, hsd'] at hres
      | some sd =>
        simp only [applyStartDay, hsd', hsd sd hsd'] at hres
        simp at hres
  cases hres : scheduleNextRun draw j now with
  | ok j2 => exact ⟨j2, rfl⟩
  | error e =>
    exfalso
    simp only [scheduleNextRun, hu, hEff, hSD] at hres
    cases hat' : j.at_time with
    | none =>
      simp only [applyAtTime, hat'] at hres
      simp at hres
    | some a =>
      obtain ⟨nr2, hAT⟩ := applyAtTime_isOk j (itv * u.duration) now nr1 u a hu hat' (hat a hat')
      rw [hAT] at hres
      simp at hres

/-- Field bounds enforced by `at()` for a daily clock anchor. -/
theorem validAt_days (sd : Option Weekday) (a : AtTime) (hs : sd = none)
    (h : validAt TimeUnit.days sd a = true) :
    0 ≤ a.hour ∧ a.hour ≤ 23 ∧ 0 ≤ a.minute ∧ a.minute ≤ 59 ∧
      0 ≤ a.second ∧ a.second ≤ 59 := by
  subst hs
  simp [validAt] at h
  omega

/-- Field bounds enforced by `at()` for an hourly clock anchor. -/
theorem validAt_hours (sd : Option Weekday) (a : AtTime) (hs : sd = none)
    (h : validAt TimeUnit.hours sd a = true) :
    a.hour = 0 ∧ 0 ≤ a.minute ∧ a.minute ≤ 59 ∧ 0 ≤ a.second ∧ a.second ≤ 59 := by
  subst hs
  simp [validAt] at h
  omega

/-- Field bounds enforced by `at()` for a minutely clock anchor. -/
theorem validAt_minutes (sd : Option Weekday) (a : AtTime) (hs : sd = none)
    (h : validAt TimeUnit.minutes sd a = true) :
    a.hour = 0 ∧ a.minute = 0 ∧ 0 ≤ a.second ∧ a.second ≤ 59 := by
  subst hs
  simp [validAt] at h
  omega

/-- Central lemma for C2: a valid job that does not combine a weekday anchor
with a clock anchor always reschedules itself strictly into the future
(effective interval at least 1, via the randint contract when `latest` is
set). -/
theorem scheduleNextRun_future (draw : Int) (j : Job) (now : Int) (u : TimeUnit)
    (hu : j.unit = some u) (hge : 1 ≤ j.interval)
    (hlat : ∀ l, j.latest = some l → j.interval ≤ l ∧ j.interval ≤ draw)
    (hsd : ∀ sd, j.start_day = some sd → j.unit = some TimeUnit.weeks)
    (hat : ∀ a, j.at_time = some a → validAt u j.start_day a = true ∧
      (u = TimeUnit.days ∨ u = TimeUnit.hours ∨ u = TimeUnit.minutes ∨
        j.start_day.isSome = true))
    (hx : j.start_day = none ∨ j.at_time = none) :
    ∃ j2 nr, scheduleNextRun draw j now = .ok j2 ∧ j2.next_run = some nr ∧ now < nr := by
  obtain ⟨itv, hEff, hitv⟩ : ∃ itv, effectiveInterval j draw = .ok itv ∧ 1 ≤ itv := by
    cases hl : j.latest with
    | none => exact ⟨j.interval, by simp [effectiveInterval, hl], hge⟩
    | some l =>
      obtain ⟨h1, h2⟩ := hlat l hl
      exact ⟨draw, by simp [effectiveInterval, hl, ge_iff_le, h1], by omega⟩
  cases hat' : j.at_time with
  | none =>
    cases hsd' : j.start_day with
    | none =>
      simp only [scheduleNextRun, hu, hEff, applyStartDay, hsd', applyAtTime, hat',
        applyStartDayAt]
      refine ⟨_, _, rfl, rfl, ?_⟩
      cases u <;>
        simp only [TimeUnit.duration, usPerSecond, usPerMinute, usPerHour, usPerDay,
          usPerWeek] <;>
        omega
    | some sd =>
      have hw : j.unit = some TimeUnit.weeks := hsd sd hsd'
      have huw : u = TimeUnit.weeks := by rw [hu] at hw; exact Option.some.inj hw
      subst huw
      have hidx : 0 ≤ Weekday.index sd ∧ Weekday.index sd ≤ 6 := by
        cases sd <;> simp [Weekday.index]
      simp [scheduleNextRun, hu, hEff, applyStartDay, hsd', applyAtTime, hat',
        applyStartDayAt, TimeUnit.duration, usPerWeek]
      simp only [weekdayOf, usPerDay]
      split_ifs <;> omega
  | some a =>
    have hsd' : j.start_day = none := by
      rcases hx with h | h
      · exact h
      · rw [hat'] at h; cases h
    have hva := (hat a hat').1
    rcases (hat a hat').2 with hud | hud | hud | hud
    · subst hud
      have hb := validAt_days j.start_day a hsd' hva
      simp [scheduleNextRun, hu, hEff, applyStartDay, hsd', applyAtTime, hat',
        applyStartDayAt, TimeUnit.duration, usPerDay]
      simp only [replaceFields, timeOfDay, dateOf, hourOf, minuteOf, secondOf,
        Option.getD_some, Option.getD_none, usPerDay, usPerHour, usPerMinute, usPerSecond]
      split_ifs <;> omega
    · subst hud
      have hb := validAt_hours j.start_day a hsd' hva
      simp [scheduleNextRun, hu, hEff, applyStartDay, hsd', applyAtTime, hat',
        applyStartDayAt, TimeUnit.duration, usPerHour]
      simp only [replaceFields, timeOfDay, dateOf, hourOf, minuteOf, secondOf,
        Option.getD_some, Option.getD_none, usPerDay, usPerHour, usPerMinute, usPerSecond]
      split_ifs <;> omega
    · subst hud
      have hb := validAt_minutes j.start_day a hsd' hva
      simp [scheduleNextRun, hu, hEff, applyStartDay, hsd', applyAtTime, hat',
        applyStartDayAt, TimeUnit.duration, usPerMinute]
      simp only [replaceFields, timeOfDay, dateOf, hourOf, minuteOf, secondOf,
        Option.getD_some, Option.getD_none, usPerDay, usPerHour, usPerMinute, usPerSecond]
      split_ifs <;> omega
    · rw [hsd'] at hud
      simp at hud

/-- Members surviving a mutate-then-unschedule of identity `a` (with distinct
identities) are untouched entries with a different identity. -/
theorem mem_removeJob_replaceJob : ∀ (l : List Job) (a : Nat) (j' k : Job),
    (l.map Job.jid).Nodup → j'.jid = a →
    k ∈ removeJob (replaceJob l a j') a → k ∈ l ∧ k.jid ≠ a
  | [], a, j', k, _, _, hk => by simp [replaceJob, removeJob] at hk
  | x :: xs, a, j', k, hnd, hj, hk => by
    simp only [List.map_cons, List.nodup_cons] at hnd
    obtain ⟨hxa, hnds⟩ := hnd
    by_cases hx : x.jid = a
    · have hxs : replaceJob xs a j' = xs :=
        replaceJob_eq_of_not_mem xs a j' (by rw [← hx]; exact hxa)
      simp only [replaceJob, List.map_cons, if_pos hx] at hk
      rw [show (xs.map fun y => if y.jid = a then j' else y) = xs from hxs] at hk
      simp only [removeJob] at hk
      rw [if_pos hj] at hk
      refine ⟨List.mem_cons_of_mem x hk, fun hka => hxa ?_⟩
      rw [← hx] at hka
      exact hka ▸ List.mem_map_of_mem Job.jid hk
    · simp only [replaceJob, List.map_cons, if_neg hx] at hk
      simp only [removeJob] at hk
      rw [if_neg hx] at hk
      rcases List.mem_cons.mp hk with hkx | hk'
      · rw [hkx]
        exact ⟨List.mem_cons_self x xs, hx⟩
      · obtain ⟨hm, hne⟩ := mem_removeJob_replaceJob xs a j' k hnds hj hk'
        exact ⟨List.mem_cons_of_mem x hm, hne⟩

/-- Unpacking `validJob` into the propositions the scheduling lemmas use. -/
theorem validJob_props (j : Job) (h : validJob j = true) :
    ∃ u, j.unit = some u ∧ 1 ≤ j.interval ∧
      (∀ l, j.latest = some l → j.interval ≤ l) ∧
      (∀ sd, j.start_day = some sd → j.unit = some TimeUnit.weeks) ∧
      (∀ a, j.at_time = some a → validAt u j.start_day a = true ∧
        (u = TimeUnit.days ∨ u = TimeUnit.hours ∨ u = TimeUnit.minutes ∨
          j.start_day.isSome = true)) ∧
      j.next_run.isSome = true ∧ ∃ v, j.funcResult = .ok v := by
  simp only [validJob, Bool.and_eq_true, decide_eq_true_eq] at h
  obtain ⟨⟨⟨⟨⟨⟨h1, h2⟩, h3⟩, h4⟩, h5⟩, h6⟩, h7⟩ := h
  obtain ⟨u, hu⟩ := Option.isSome_iff_exists.mp h1
  refine ⟨u, hu, h2, ?_, ?_, ?_, h6, ?_⟩
  · intro l hl
    rw [hl] at h3
    simpa using h3
  · intro sd hsd
    rw [hsd] at h4
    simpa using h4
  · intro a ha
    rw [ha, hu] at h5
    simp only [Bool.and_eq_true, Bool.or_eq_true, decide_eq_true_eq] at h5
    exact ⟨h5.2, by tauto⟩
  · cases hf : j.funcResult with
    | ok v => exact ⟨v, rfl⟩
    | error e => rw [hf] at h7; simp at h7

/-- Single-run characterization used by the `run_pending` proofs: a valid job
runs without raising; the job keeps its identity; and the result is either a
cancellation (the scheduler will unschedule it) or, when the job does not
combine both anchors, a recomputed strictly-future `next_run`. -/
theorem run_char (draw : Int) (j : Job) (now : Int) (hv : validJob j = true)
    (hdr : ∀ l, j.latest = some l → j.interval ≤ draw) :
    ∃ r j', run draw j now = (.ok r, j', !isOverdue j now) ∧ j'.jid = j.jid ∧
      (r = RunResult.cancelJob ∨
        ∃ nr, j'.next_run = some nr ∧
          ((j.start_day = none ∨ j.at_time = none) → now < nr)) := by
  obtain ⟨u, hu, hge, hlat, hsdw, hatv, hnrs, v, hfv⟩ := validJob_props j hv
  by_cases hov : isOverdue j now = true
  · exact ⟨.cancelJob, j, by simp [run, hov], rfl, .inl rfl⟩
  · rw [Bool.not_eq_true] at hov
    by_cases hxx : j.start_day = none ∨ j.at_time = none
    · obtain ⟨j2, nr, hs, hnr, hlt⟩ :=
        scheduleNextRun_future draw { j with last_run := some now } now u hu hge
          (fun l hl => ⟨hlat l hl, hdr l hl⟩) hsdw hatv hxx
      obtain ⟨u', itv, nr', _, _, hshape⟩ := scheduleNextRun_ok_shape _ _ _ _ hs
      have hjid : j2.jid = j.jid := by rw [hshape]
      rw [hfv] at hs
      refine ⟨if isOverdue j2 nr then .cancelJob else .value v, j2, ?_, hjid, ?_⟩
      · simp only [run, hov, Bool.false_eq_true, if_false, hfv, hs, hnr,
          Option.getD_some, Bool.not_false]
        split <;> rfl
      · exact .inr ⟨nr, hnr, fun _ => hlt⟩
    · obtain ⟨j2, hs⟩ :=
        scheduleNextRun_isOk draw { j with last_run := some now } now u hu hlat hsdw
          (fun a ha => (hatv a ha).2)
      obtain ⟨u', itv, nr', _, _, hshape⟩ := scheduleNextRun_ok_shape _ _ _ _ hs
      have hjid : j2.jid = j.jid := by rw [hshape]
      have hnr : j2.next_run = some nr' := by rw [hshape]
      rw [hfv] at hs
      refine ⟨if isOverdue j2 nr' then .cancelJob else .value v, j2, ?_, hjid, ?_⟩
      · simp only [run, hov, Bool.false_eq_true, if_false, hfv, hs, hnr,
          Option.getD_some, Bool.not_false]
        split <;> rfl
      · exact .inr ⟨nr', hnr, fun hc => absurd hc hxx⟩

/-- Characterization of `_run_job` on a valid job: it never raises, the
instant is untouched, identities stay distinct, and every job left in the
collection is either an untouched different object or no longer due (the
latter guaranteed only without combined anchors). -/
theorem runJobStep_char (rnd : Int → Int → Int)
    (hrnd : ∀ lo hi : Int, lo ≤ hi → lo ≤ rnd lo hi ∧ rnd lo hi ≤ hi)
    (s : SchedState) (j : Job) (hv : validJob j = true)
    (hnd : (s.jobs.map Job.jid).Nodup) :
    (runJobStep rnd s j).1 = .ok () ∧
    (runJobStep rnd s j).2.timestamp = s.timestamp ∧
    ((runJobStep rnd s j).2.jobs.map Job.jid).Nodup ∧
    ((j.start_day = none ∨ j.at_time = none) →
      ∀ k ∈ (runJobStep rnd s j).2.jobs,
        (k ∈ s.jobs ∧ k.jid ≠ j.jid) ∨ shouldRun k s.timestamp = false) := by
  obtain ⟨u, hu, hge, hlat, hsdw, hatv, hnrs, v, hfv⟩ := validJob_props j hv
  have hdr : ∀ l, j.latest = some l →
      j.interval ≤ rnd j.interval (j.latest.getD j.interval) := by
    intro l hl
    have h2 := hrnd j.interval l (hlat l hl)
    have hg : j.latest.getD j.interval = l := by rw [hl]; rfl
    rw [hg]
    exact h2.1
  obtain ⟨r, j', hrun, hjid, hres⟩ :=
    run_char (rnd j.interval (j.latest.getD j.interval)) j s.timestamp hv hdr
  cases r with
  | cancelJob =>
    have hstep : runJobStep rnd s j =
        (.ok (), { s with jobs := removeJob (replaceJob s.jobs j.jid j') j.jid }) := by
      simp only [runJobStep, hrun]
    refine ⟨by rw [hstep], by rw [hstep], ?_, ?_⟩
    · rw [hstep]
      have hmap : (replaceJob s.jobs j.jid j').map Job.jid = s.jobs.map Job.jid :=
        map_jid_replaceJob _ _ _ hjid
      have hsub := (removeJob_sublist (replaceJob s.jobs j.jid j') j.jid).map Job.jid
      rw [hmap] at hsub
      exact hnd.sublist hsub
    · intro hxx k hk
      rw [hstep] at hk
      exact .inl (mem_removeJob_replaceJob _ _ _ _ hnd hjid hk)
  | value w =>
    rcases hres with h | ⟨nr, hnr, hfut⟩
    · exact absurd h (by simp)
    · have hstep : runJobStep rnd s j =
          (.ok (), { s with jobs := replaceJob s.jobs j.jid j' }) := by
        simp only [runJobStep, hrun]
      refine ⟨by rw [hstep], by rw [hstep], ?_, ?_⟩
      · rw [hstep]
        have hmap : (replaceJob s.jobs j.jid j').map Job.jid = s.jobs.map Job.jid :=
          map_jid_replaceJob _ _ _ hjid
        simpa [hmap] using hnd
      · intro hxx k hk
        rw [hstep] at hk
        rcases mem_replaceJob _ _ _ _ hk with hkj | ⟨h1, h2⟩
        · right
          rw [hkj]
          simp only [shouldRun, hnr, decide_eq_false_iff_not, not_le, ge_iff_le]
          exact hfut hxx
        · exact .inl ⟨h1, h2⟩

/-- Characterization of the `run_pending` loop over a snapshot of valid jobs:
it never raises, processes exactly the snapshot in order, keeps the instant
and the identity discipline, and (without combined anchors) leaves only jobs
that are not due. -/
theorem runPendingAux_char (rnd : Int → Int → Int)
    (hrnd : ∀ lo hi : Int, lo ≤ hi → lo ≤ rnd lo hi ∧ rnd lo hi ≤ hi) :
    ∀ (todo : List Job) (s : SchedState),
      (∀ j ∈ todo, validJob j = true) →
      (s.jobs.map Job.jid).Nodup →
      (runPendingAux rnd s todo).1 = .ok () ∧
      (runPendingAux rnd s todo).2.2 = todo.map Job.jid ∧
      (runPendingAux rnd s todo).2.1.timestamp = s.timestamp ∧
      ((runPendingAux rnd s todo).2.1.jobs.map Job.jid).Nodup ∧
      ((∀ j ∈ todo, j.start_day = none ∨ j.at_time = none) →
        ∀ k ∈ (runPendingAux rnd s todo).2.1.jobs,
          (k ∈ s.jobs ∧ k.jid ∉ todo.map Job.jid) ∨ shouldRun k s.timestamp = false)
  | [], s, hv, hnd => by
    refine ⟨rfl, rfl, rfl, hnd, ?_⟩
    intro _ k hk
    exact .inl ⟨hk, by simp⟩
  | j :: rest, s, hv, hnd => by
    obtain ⟨h1, h2, h3, h4⟩ := runJobStep_char rnd hrnd s j (hv j (by simp)) hnd
    obtain ⟨ih1, ih2, ih3, ih4, ih5⟩ :=
      runPendingAux_char rnd hrnd rest (runJobStep rnd s j).2
        (fun k hk => hv k (by simp [hk])) h3
    have hunfold : runPendingAux rnd s (j :: rest) =
        ((runPendingAux rnd (runJobStep rnd s j).2 rest).1,
         (runPendingAux rnd (runJobStep rnd s j).2 rest).2.1,
         j.jid :: (runPendingAux rnd (runJobStep rnd s j).2 rest).2.2) := by
      simp only [runPendingAux, h1]
    refine ⟨?_, ?_, ?_, ?_, ?_⟩
    · rw [hunfold]
      exact ih1
    · rw [hunfold]
      simp only [List.map_cons]
      rw [ih2]
    · rw [hunfold]
      rw [ih3, h2]
    · rw [hunfold]
      exact ih4
    · intro hanch k hk
      rw [hunfold] at hk
      rcases ih5 (fun x hx => hanch x (by simp [hx])) k hk with ⟨hmem, hnin⟩ | hfalse
      · rcases h4 (hanch j (by simp)) k hmem with ⟨hm2, hne⟩ | hf2
        · refine .inl ⟨hm2, ?_⟩
          simp only [List.map_cons, List.mem_cons, not_or]
          exact ⟨hne, hnin⟩
        · exact .inr hf2
      · rw [h2] at hfalse
        exact .inr hfalse

/-- C2 (amended): given the randint contract, `run_pending()` on a valid
scheduler state raises nothing and enters the single-job execution path for
exactly the jobs whose `next_run` is at or before the current instant, in
ascending `next_run` order (the processed snapshot is a sorted permutation
of the due set); a job whose `next_run` is strictly in the future is never
processed; and an immediately repeated `run_pending()` with an unchanged
instant processes no job, PROVIDED no job combines a weekday anchor with a
clock anchor — the amendment forced by the counterexample below, where such
a job, executed exactly at its anchor instant, recomputes `next_run` equal
to the current instant and runs again. -/
theorem C2_run_pending_selection (rnd : Int → Int → Int)
    (hrnd : ∀ lo hi : Int, lo ≤ hi → lo ≤ rnd lo hi ∧ rnd lo hi ≤ hi)
    (s : SchedState) (hs : validState s = true) :
    (runPending rnd s).1 = .ok () ∧
    (runPending rnd s).2.2 = (sortJobs (dueJobs s)).map Job.jid ∧
    (sortJobs (dueJobs s)).Perm (dueJobs s) ∧
    (sortJobs (dueJobs s)).Pairwise (fun a b => jobKey a ≤ jobKey b) ∧
    (∀ j ∈ s.jobs, shouldRun j s.timestamp = false →
      j.jid ∉ (runPending rnd s).2.2) ∧
    ((∀ j ∈ s.jobs, j.start_day = none ∨ j.at_time = none) →
      (runPending rnd (runPending rnd s).2.1).2.2 = []) := by
  simp only [runPending]
  have hall : ∀ j ∈ s.jobs, validJob j = true := by
    simp only [validState, Bool.and_eq_true, List.all_eq_true, decide_eq_true_eq] at hs
    exact fun j hj => hs.1 j hj
  have hnd : (s.jobs.map Job.jid).Nodup := by
    simp only [validState, Bool.and_eq_true, decide_eq_true_eq] at hs
    exact hs.2
  have hdsub : ∀ j ∈ dueJobs s, j ∈ s.jobs := fun j hj => (List.mem_filter.mp hj).1
  have hssub : ∀ j ∈ sortJobs (dueJobs s), j ∈ s.jobs := fun j hj =>
    hdsub j ((sortJobs_perm (dueJobs s)).mem_iff.mp hj)
  obtain ⟨h1, h2, h3, h4, h5⟩ := runPendingAux_char rnd hrnd (sortJobs (dueJobs s)) s
    (fun j hj => hall j (hssub j hj)) hnd
  refine ⟨h1, h2, sortJobs_perm _, sortJobs_pairwise _, ?_, ?_⟩
  · intro j hj hfalse hmem
    rw [h2] at hmem
    obtain ⟨k, hk, hkj⟩ := List.mem_map.mp hmem
    have hkdue : shouldRun k s.timestamp = true :=
      (List.mem_filter.mp ((sortJobs_perm _).mem_iff.mp hk)).2
    have hkj' : k = j := List.inj_on_of_nodup_map hnd (hssub k hk) hj hkj
    rw [hkj'] at hkdue
    rw [hkdue] at hfalse
    cases hfalse
  · intro hanch
    have hnone : ∀ k ∈ (runPendingAux rnd s (sortJobs (dueJobs s))).2.1.jobs,
        shouldRun k s.timestamp = false := by
      intro k hk
      rcases h5 (fun x hx => hanch x (hssub x hx)) k hk with ⟨hmem, hnin⟩ | hf
      · by_contra hcon
        rw [Bool.not_eq_false] at hcon
        have hd : k ∈ dueJobs s := List.mem_filter.mpr ⟨hmem, hcon⟩
        have hss : k ∈ sortJobs (dueJobs s) := (sortJobs_perm _).mem_iff.mpr hd
        exact hnin (List.mem_map_of_mem Job.jid hss)
      · exact hf
    have hgen : ∀ s2 : SchedState, s2.timestamp = s.timestamp →
        (∀ k ∈ s2.jobs, shouldRun k s.timestamp = false) → dueJobs s2 = [] := by
      intro s2 hts hn
      unfold dueJobs
      rw [List.filter_eq_nil_iff]
      intro k hk
      rw [hts]
      simp [hn k hk]
    rw [hgen _ h3 hnone]
    rfl

/-- C2 counterexample: on this valid state, `run_pending()` executes the job
and recomputes its `next_run` to the unchanged current instant, so an
immediately repeated `run_pending()` executes it again — refuting the claim
that a repeated call with an unchanged instant executes no job. -/
theorem C2_repeat_run_pending_cex :
    validState cexState = true ∧
    (runPending cexRnd cexState).2.2 = [1] ∧
    (runPending cexRnd (runPending cexRnd cexState).2.1).2.2 = [1] := by
  decide

/-- C2 witness: the amended theorem applied to a concrete one-job state. -/
theorem C2_run_pending_selection_witness :
    (runPending cexRnd c2WitnessState).1 = .ok () ∧
    (runPending cexRnd (runPending cexRnd c2WitnessState).2.1).2.2 = [] := by
  have h := C2_run_pending_selection cexRnd
    (fun lo hi hle => ⟨le_refl lo, hle⟩) c2WitnessState (by decide)
  exact ⟨h.1, h.2.2.2.2.2 (by decide)⟩

/-- A run never erases a computed `next_run`. -/
theorem run_next_run_isSome (draw : Int) (j : Job) (now : Int)
    (h : j.next_run.isSome = true) : (run draw j now).2.1.next_run.isSome = true := by
  unfold run
  split
  · exact h
  · split
    · exact h
    · dsimp only
      split
      · exact h
      · rename_i j2 heq
        obtain ⟨u, itv, nr, _, _, hshape⟩ := scheduleNextRun_ok_shape _ _ _ _ heq
        split <;> simp [hshape]

/-- The `run_pending` loop never erases a computed `next_run`. -/
theorem runPendingAux_preserves_config (rnd : Int → Int → Int) :
    ∀ (todo : List Job) (s : SchedState),
      (∀ k ∈ s.jobs, k.next_run.isSome = true) →
      (∀ j ∈ todo, j.next_run.isSome = true) →
      ∀ k ∈ (runPendingAux rnd s todo).2.1.jobs, k.next_run.isSome = true
  | [], _, hall, _, k, hk => hall k hk
  | j :: rest, s, hall, htodo, k, hk => by
    have hstep : ∀ k2 ∈ (runJobStep rnd s j).2.jobs, k2.next_run.isSome = true := by
      intro k2 hk2
      have hout := run_next_run_isSome (rnd j.interval (j.latest.getD j.interval)) j
        s.timestamp (htodo j (by simp))
      unfold runJobStep at hk2
      dsimp only at hk2
      split at hk2
      · rcases mem_replaceJob _ _ _ _ hk2 with hkk | ⟨h1, _⟩
        · rw [hkk]; exact hout
        · exact hall k2 h1
      · rcases mem_replaceJob _ _ _ _ (mem_removeJob _ _ _ hk2) with hkk | ⟨h1, _⟩
        · rw [hkk]; exact hout
        · exact hall k2 h1
      · rcases mem_replaceJob _ _ _ _ hk2 with hkk | ⟨h1, _⟩
        · rw [hkk]; exact hout
        · exact hall k2 h1
    have hrest : ∀ x ∈ rest, x.next_run.isSome = true :=
      fun x hx => htodo x (by simp [hx])
    unfold runPendingAux at hk
    dsimp only at hk
    split at hk
    · exact hstep k hk
    · exact runPendingAux_preserves_config rnd rest (runJobStep rnd s j).2 hstep hrest k hk

/-- Python `min` over a job list picks a member. -/
theorem foldl_minJob_mem : ∀ (rest : List Job) (x : Job),
    (rest.foldl (fun m k => if jobKey k < jobKey m then k else m) x) = x ∨
    (rest.foldl (fun m k => if jobKey k < jobKey m then k else m) x) ∈ rest
  | [], _ => .inl rfl
  | r :: rs, x => by
    simp only [List.foldl_cons]
    rcases foldl_minJob_mem rs (if jobKey r < jobKey x then r else x) with h | h
    · rw [h]
      split
      · exact .inr (List.mem_cons_self r rs)
      · exact .inl rfl
    · exact .inr (List.mem_cons_of_mem r h)

/-- C10: every job present in a scheduler's collection has a computed
`next_run`: `do()` appends only after the first computation succeeds, the
`run_pending` cycle only rewrites `next_run` to computed instants, and
`clear`/`cancel_job` only drop entries; consequently `get_next_run` is
well-defined (returns an instant) whenever jobs exist. -/
theorem C10_registered_jobs_configured (rnd : Int → Int → Int) (j : Job)
    (s : SchedState) (tag : Option Nat) (a : Nat)
    (hall : ∀ k ∈ s.jobs, k.next_run.isSome = true) :
    (∀ s', doJob rnd j s = .ok s' → ∀ k ∈ s'.jobs, k.next_run.isSome = true) ∧
    (∀ k ∈ (runPending rnd s).2.1.jobs, k.next_run.isSome = true) ∧
    (∀ k ∈ (clearJobs tag s).jobs, k.next_run.isSome = true) ∧
    (∀ k ∈ (cancelJobOp s a).jobs, k.next_run.isSome = true) ∧
    (s.jobs.isEmpty = false → (getNextRun none s).isSome = true) := by
  refine ⟨?_, ?_, ?_, ?_, ?_⟩
  · intro s' hok k hk
    unfold doJob at hok
    split at hok
    · exact absurd hok (by simp)
    · rename_i j' heq
      obtain ⟨u, itv, nr, _, _, hshape⟩ := scheduleNextRun_ok_shape _ _ _ _ heq
      rw [← Except.ok.inj hok] at hk
      simp only [List.mem_append, List.mem_singleton] at hk
      rcases hk with hk | hk
      · exact hall k hk
      · rw [hk, hshape]
        rfl
  · intro k hk
    apply runPendingAux_preserves_config rnd (sortJobs (dueJobs s)) s hall ?_ k hk
    intro x hx
    have hxd := (List.mem_filter.mp ((sortJobs_perm _).mem_iff.mp hx)).2
    unfold shouldRun at hxd
    cases hnr : x.next_run with
    | none => rw [hnr] at hxd; cases hxd
    | some t => simp [hnr]
  · intro k hk
    cases tag with
    | none => simp [clearJobs] at hk
    | some t =>
      have hk2 : k ∈ s.jobs ∧ t ∉ k.tags := by simpa [clearJobs] using hk
      exact hall k hk2.1
  · intro k hk
    exact hall k (mem_removeJob _ _ _ hk)
  · intro hne
    unfold getNextRun
    rw [if_neg (by simp [hne])]
    dsimp only
    rw [if_neg (by simp [hne])]
    cases hjobs : s.jobs with
    | nil => rw [hjobs] at hne; cases hne
    | cons x rest =>
      simp only [hjobs, minJob, Option.bind]
      rcases foldl_minJob_mem rest x with h | h
      · rw [h]
        exact hall x (by rw [hjobs]; exact List.mem_cons_self x rest)
      · set m := rest.foldl (fun m k => if jobKey k < jobKey m then k else m) x
        exact hall m (by rw [hjobs]; exact List.mem_cons_of_mem x h)

/-- C10 witness: the invariant instantiated on a concrete state. -/
theorem C10_registered_jobs_configured_witness :
    (∀ k ∈ (runPending cexRnd c10State).2.1.jobs, k.next_run.isSome = true) ∧
    (c10State.jobs.isEmpty = false → (getNextRun none c10State).isSome = true) :=
  ⟨(C10_registered_jobs_configured cexRnd
      { jid := 0, interval := 1, funcResult := .ok 0 } c10State none 0
      (by decide)).2.1,
   (C10_registered_jobs_configured cexRnd
      { jid := 0, interval := 1, funcResult := .ok 0 } c10State none 0
      (by decide)).2.2.2.2⟩

end Schedule
